import Mathlib

/-!
Verification of the OpenAPI-to-tool synthesis and invocation engine of the
edgedelta-mcp-server repository.  Go strings are modelled as lists of
characters, Go maps as association lists, and JSON argument values (Go `any`)
as a small inductive type.  Each embedded definition names the Go function it
translates; the repository contains two revisions of the `tools` package
(`pkg/tools/server.go` and an unnamed sibling file) plus the
`pkg/swagger2mcp` package, and where those revisions differ both are embedded
under distinct names.
-/

/-- Go strings, modelled as lists of characters. -/
abbrev Str := List Char

/-- Conversion from Lean string literals to the `Str` model. -/
def strOf (s : String) : Str := s.data

/-- A JSON-decoded Go `any` argument value.  JSON numbers decode to Go
`float64`; only integral numbers occur in the claims, so numbers are modelled
as integers.  Composite values (objects/arrays) do not occur in any claim. -/
inductive Value where
  | vStr (s : Str)
  | vBool (b : Bool)
  | vNum (n : Int)
deriving DecidableEq, Repr

/-- Decimal rendering of an integer, as Go `fmt.Sprintf("%v", n)` prints an
integral number. -/
def intRepr (n : Int) : Str := (toString n).data

/-- Go `fmt.Sprintf("%t", b)` / `%v` on booleans. -/
def boolRepr (b : Bool) : Str := if b then strOf "true" else strOf "false"

/-- Decimal rendering of a natural number (Go `%d`). -/
def natRepr (n : Nat) : Str := (toString n).data

/-- Go `fmt.Sprintf("%v", value)` on the modelled argument values. -/
def goFormat : Value → Str
  | .vStr s => s
  | .vBool b => boolRepr b
  | .vNum n => intRepr n

/-- Boolean test whether `p` is a leading segment of `s` (Go's substring
match at position 0). -/
def isPre : Str → Str → Bool
  | [], _ => true
  | _ :: _, [] => false
  | a :: p, b :: s => a == b && isPre p s

/-- Go `strings.Contains s pat`. -/
def containsSub : Str → Str → Bool
  | [], pat => pat.isEmpty
  | c :: rest, pat => isPre pat (c :: rest) || containsSub rest pat

/-- Fueled body of Go `strings.ReplaceAll s old new`: replace the leftmost
occurrence of `old`, continue after the replacement (replacements are not
rescanned).  The fuel only bounds recursion depth; one character is consumed
per step, so `s.length` fuel is always enough. -/
def replaceAllAux : Nat → Str → Str → Str → Str
  | 0, s, _, _ => s
  | _ + 1, [], _, _ => []
  | fuel + 1, c :: rest, old, new =>
    if !old.isEmpty && isPre old (c :: rest) then
      new ++ replaceAllAux fuel ((c :: rest).drop old.length) old new
    else
      c :: replaceAllAux fuel rest old new

/-- Go `strings.ReplaceAll s old new`.  (For `old = ""` Go inserts `new` at
every boundary; every call site in the repository uses a nonempty `old` of the
form `"{" + key + "}"`, where this model and Go agree.) -/
def replaceAll (s old new : Str) : Str := replaceAllAux s.length s old new

/-- The `"{name}"` placeholder text for a path-parameter key
(`fmt.Sprintf("{%s}", key)` in `buildURL`). -/
def placeholderOf (k : Str) : Str := '{' :: (k ++ ['}'])

/-- The reserved organization-identity parameter name. -/
def orgKey : Str := strOf "org_id"

/-- First-match association-list lookup: models reading a Go map that was
built with distinct keys. -/
def lookupArg : List (Str × Value) → Str → Option Value
  | [], _ => none
  | (k, v) :: rest, p => if k = p then some v else lookupArg rest p

/-- Go map assignment `args[k] = v`: replace the binding if present,
otherwise add it. -/
def setArg : List (Str × Value) → Str → Value → List (Str × Value)
  | [], k, v => [(k, v)]
  | (k', v') :: rest, k, v =>
    if k' = k then (k, v) :: rest else (k', v') :: setArg rest k v

/-- One step of the loop body of `Server.buildURL` (pkg/tools/server.go):
for one argument, substitute its placeholder if it occurs in the URL. -/
def substStep (url : Str) (kv : Str × Value) : Str :=
  if containsSub url (placeholderOf kv.1) then
    replaceAll url (placeholderOf kv.1) (goFormat kv.2)
  else url

/-- Model of `Server.buildURL` (pkg/tools/server.go lines 338-350, identical in the
sibling revision and in swagger2mcp's `buildURL`): concatenate `apiURL` and
`path`, then substitute each argument's placeholder.  Go iterates the
argument map in unspecified order; the model fixes the list order, and the
theorems below only assume hypotheses under which the result is
order-independent. -/
def buildURL (apiURL path : Str) (args : List (Str × Value)) : Str :=
  args.foldl substStep (apiURL ++ path)

/-- The org-id injection step at the top of `Server.executeOperation`
(pkg/tools/server.go lines 272-277): if the path contains `{org_id}` and the
ambient context carries an org id, overwrite `args["org_id"]` with it. -/
def injectOrg (path : Str) (ctxOrg : Option Value) (args : List (Str × Value)) :
    List (Str × Value) :=
  if containsSub path (placeholderOf orgKey) then
    match ctxOrg with
    | some v => setArg args orgKey v
    | none => args
  else args

/-- The URL produced by `Server.executeOperation` for one invocation:
org-id injection followed by `buildURL`. -/
def executeURL (apiURL path : Str) (ctxOrg : Option Value)
    (args : List (Str × Value)) : Str :=
  buildURL apiURL path (injectOrg path ctxOrg args)

/-- True when a string contains neither brace character.  URL paths are made
of brace-free literal segments and `{name}` placeholders with brace-free
names; caller argument keys and formatted values are likewise brace-free in
every well-formed invocation. -/
def braceFree (s : Str) : Bool := s.all fun c => c != '{' && c != '}'

/-- A structured view of an operation path: literal text interleaved with
`{name}` placeholders.  This is the specification-side vocabulary used to
state what path substitution must do; the code itself only sees the rendered
string. -/
inductive PathPiece where
  | lit (s : Str)
  | hole (name : Str)
deriving DecidableEq, Repr

/-- Flatten a structured path back to the string the code operates on. -/
def renderPath : List PathPiece → Str
  | [] => []
  | .lit s :: rest => s ++ renderPath rest
  | .hole n :: rest => placeholderOf n ++ renderPath rest

/-- Replace every placeholder named `k` by the literal text `w`. -/
def mapSubst (k w : Str) (ps : List PathPiece) : List PathPiece :=
  ps.map fun pc =>
    match pc with
    | .hole n => if n = k then .lit w else .hole n
    | .lit s => .lit s

/-- A piece is clean when its text carries no brace characters. -/
def cleanPiece : PathPiece → Bool
  | .lit s => braceFree s
  | .hole n => braceFree n

/-- All pieces of a structured path are clean. -/
def cleanPieces (ps : List PathPiece) : Prop := ∀ pc ∈ ps, cleanPiece pc = true

/-- All argument keys and all formatted argument values are brace-free. -/
def cleanArgs (args : List (Str × Value)) : Prop :=
  ∀ kv ∈ args, braceFree kv.1 = true ∧ braceFree (goFormat kv.2) = true

instance (ps : List PathPiece) : Decidable (cleanPieces ps) :=
  inferInstanceAs (Decidable (∀ pc ∈ ps, cleanPiece pc = true))

instance (args : List (Str × Value)) : Decidable (cleanArgs args) :=
  inferInstanceAs
    (Decidable (∀ kv ∈ args, braceFree kv.1 = true ∧ braceFree (goFormat kv.2) = true))

/-- Specification-side substitution: each placeholder whose name is bound in
the arguments becomes the string form of that argument; an unbound
placeholder is carried through unreplaced. -/
def substPieces (args : List (Str × Value)) : List PathPiece → Str
  | [] => []
  | .lit s :: rest => s ++ substPieces args rest
  | .hole n :: rest =>
    (match lookupArg args n with
     | some v => goFormat v
     | none => placeholderOf n) ++ substPieces args rest

/-- The substitution described by the claim: the reserved `org_id`
placeholder always takes the ambient value `ov` (caller arguments are never
consulted for it), every other placeholder takes the string form of its
matching argument, and an unmatched placeholder is carried through. -/
def claimSubst (ov : Value) (args : List (Str × Value)) : List PathPiece → Str
  | [] => []
  | .lit s :: rest => s ++ claimSubst ov args rest
  | .hole n :: rest =>
    (if n = orgKey then goFormat ov
     else
       match lookupArg args n with
       | some v => goFormat v
       | none => placeholderOf n) ++ claimSubst ov args rest

/-! Lemmas about the string machinery. -/

theorem replaceAllAux_stable (f₁ : Nat) :
    ∀ (f₂ : Nat) (s old new : Str), s.length ≤ f₁ → s.length ≤ f₂ →
      replaceAllAux f₁ s old new = replaceAllAux f₂ s old new := by
  induction f₁ with
  | zero =>
    intro f₂ s old new h₁ _
    have hs : s = [] := List.length_eq_zero.mp (Nat.le_zero.mp h₁)
    subst hs
    cases f₂ <;> rfl
  | succ f₁ ih =>
    intro f₂ s old new h₁ h₂
    cases s with
    | nil => cases f₂ <;> rfl
    | cons c rest =>
      cases f₂ with
      | zero => exact absurd h₂ (by simp)
      | succ f₂ =>
        rw [replaceAllAux, replaceAllAux]
        by_cases hc : (!old.isEmpty && isPre old (c :: rest)) = true
        · rw [if_pos hc, if_pos hc]
          have hold : 0 < old.length := by
            cases old with
            | nil => simp [List.isEmpty] at hc
            | cons _ _ => simp
          have hdrop : ((c :: rest).drop old.length).length ≤ f₁ := by
            rw [List.length_drop]
            simp only [List.length_cons] at h₁ ⊢
            omega
          have hdrop₂ : ((c :: rest).drop old.length).length ≤ f₂ := by
            rw [List.length_drop]
            simp only [List.length_cons] at h₂ ⊢
            omega
          rw [ih f₂ _ old new hdrop hdrop₂]
        · rw [if_neg hc, if_neg hc]
          have hr₁ : rest.length ≤ f₁ := by simpa using Nat.le_of_succ_le_succ h₁
          have hr₂ : rest.length ≤ f₂ := by simpa using Nat.le_of_succ_le_succ h₂
          rw [ih f₂ rest old new hr₁ hr₂]

theorem replaceAll_nil (old new : Str) : replaceAll [] old new = [] := rfl

/-- One-step unfolding of `replaceAll` that hides the fuel entirely. -/
theorem replaceAll_cons (c : Char) (s old new : Str) :
    replaceAll (c :: s) old new =
      if !old.isEmpty && isPre old (c :: s) then
        new ++ replaceAll ((c :: s).drop old.length) old new
      else c :: replaceAll s old new := by
  show replaceAllAux (s.length + 1) (c :: s) old new = _
  rw [replaceAllAux]
  by_cases hc : (!old.isEmpty && isPre old (c :: s)) = true
  · rw [if_pos hc, if_pos hc]
    have hold : 0 < old.length := by
      cases old with
      | nil => simp [List.isEmpty] at hc
      | cons _ _ => simp
    have hle : ((c :: s).drop old.length).length ≤ s.length := by
      rw [List.length_drop]
      simp only [List.length_cons]
      omega
    rw [replaceAllAux_stable s.length _ _ old new hle (Nat.le_refl _)]
    rfl
  · rw [if_neg hc, if_neg hc]
    rfl

theorem isPre_append_self (a b : Str) : isPre a (a ++ b) = true := by
  induction a with
  | nil => rfl
  | cons x a ih => simp [isPre, ih]

/-- A pattern starting with `{` matches nowhere inside text without `{`,
so replacement skips over such a leading segment unchanged. -/
theorem replaceAll_append_nohole (p w : Str) :
    ∀ (s t : Str), '{' ∉ s →
      replaceAll (s ++ t) ('{' :: p) w = s ++ replaceAll t ('{' :: p) w := by
  intro s
  induction s with
  | nil => intro t _; rfl
  | cons c s ih =>
    intro t hmem
    have hcne : c ≠ '{' := fun h => hmem (h ▸ List.mem_cons_self c s)
    rw [List.cons_append, replaceAll_cons]
    have hpre : isPre ('{' :: p) (c :: (s ++ t)) = false := by
      simp [isPre, Ne.symm hcne]
    rw [hpre]
    simp only [Bool.and_false, Bool.false_eq_true, if_false]
    rw [ih t (fun h => hmem (List.mem_cons_of_mem c h))]
    rfl

/-- Replacement at an exact occurrence of the (nonempty) pattern. -/
theorem replaceAll_at_match (x : Char) (a t w : Str) :
    replaceAll ((x :: a) ++ t) (x :: a) w = w ++ replaceAll t (x :: a) w := by
  rw [List.cons_append, replaceAll_cons]
  have hpre : isPre (x :: a) (x :: (a ++ t)) = true := by
    simpa using isPre_append_self (x :: a) t
  have hcond : (!(x :: a).isEmpty && isPre (x :: a) (x :: (a ++ t))) = true := by
    simp [hpre, List.isEmpty]
  rw [if_pos hcond]
  congr 1
  rw [← List.cons_append, List.drop_left]

/-- Two distinct brace-free placeholder names never match each other:
`k}` is not a leading segment of `m}t`. -/
theorem isPre_close_ne (k : Str) :
    ∀ (m t : Str), braceFree k = true → braceFree m = true → k ≠ m →
      isPre (k ++ ['}']) (m ++ '}' :: t) = false := by
  induction k with
  | nil =>
    intro m t _ hm hne
    cases m with
    | nil => exact absurd rfl hne
    | cons c m =>
      have hc : (c != '{' && c != '}') = true := by
        have := List.all_eq_true.mp hm c (List.mem_cons_self c m)
        simpa using this
      have : c ≠ '}' := by
        rcases Bool.and_eq_true_iff.mp hc with ⟨_, h⟩
        exact bne_iff_ne.mp h
      simp [isPre, Ne.symm this]
  | cons a k ih =>
    intro m t hk hm hne
    have ha : (a != '{' && a != '}') = true := by
      have := List.all_eq_true.mp hk a (List.mem_cons_self a k)
      simpa using this
    have hane : a ≠ '}' := by
      rcases Bool.and_eq_true_iff.mp ha with ⟨_, h⟩
      exact bne_iff_ne.mp h
    have hktail : braceFree k = true := by
      rw [braceFree, List.all_cons] at hk
      exact (Bool.and_eq_true_iff.mp hk).2
    cases m with
    | nil => simp [isPre, hane]
    | cons c m =>
      have hmtail : braceFree m = true := by
        rw [braceFree, List.all_cons] at hm
        exact (Bool.and_eq_true_iff.mp hm).2
      by_cases hac : a = c
      · subst hac
        have hkm : k ≠ m := fun h => hne (h ▸ rfl)
        simp [isPre, ih m t hktail hmtail hkm]
      · simp [isPre, hac]

/-- Replacement skips over a whole placeholder with a different name. -/
theorem replaceAll_hole_ne (k m t w : Str) (hk : braceFree k = true)
    (hm : braceFree m = true) (hne : k ≠ m) :
    replaceAll (placeholderOf m ++ t) (placeholderOf k) w =
      placeholderOf m ++ replaceAll t (placeholderOf k) w := by
  have h1 : placeholderOf m ++ t = '{' :: (m ++ '}' :: t) := by
    simp [placeholderOf]
  have h2 : '{' ∉ m ++ ['}'] := by
    intro h
    rcases List.mem_append.mp h with h | h
    · have := List.all_eq_true.mp hm '{' h
      simp at this
    · simp at h
  have h3 := replaceAll_append_nohole (k ++ ['}']) w (m ++ ['}']) t h2
  have hpre : isPre (placeholderOf k) ('{' :: (m ++ '}' :: t)) = false := by
    simp only [placeholderOf, isPre, beq_self_eq_true, Bool.true_and]
    exact isPre_close_ne k m t hk hm hne
  rw [h1, replaceAll_cons, hpre]
  simp only [Bool.and_false, Bool.false_eq_true, if_false]
  rw [show m ++ '}' :: t = (m ++ ['}']) ++ t by simp]
  rw [show ('{' :: (k ++ ['}'])) = placeholderOf k from rfl] at h3
  rw [h3]
  simp [placeholderOf]

/-- On a rendered clean path, one `ReplaceAll` with placeholder `{k}`
replaces exactly the placeholders named `k`. -/
theorem replaceAll_render (k w : Str) (hk : braceFree k = true) :
    ∀ ps : List PathPiece, cleanPieces ps →
      replaceAll (renderPath ps) (placeholderOf k) w =
        renderPath (mapSubst k w ps) := by
  intro ps
  induction ps with
  | nil => intro _; rfl
  | cons pc rest ih =>
    intro hclean
    have hhd : cleanPiece pc = true := hclean pc (List.mem_cons_self pc rest)
    have htl : cleanPieces rest := fun q hq => hclean q (List.mem_cons_of_mem pc hq)
    cases pc with
    | lit s =>
      have hs : '{' ∉ s := by
        intro h
        have := List.all_eq_true.mp hhd '{' h
        simp at this
      show replaceAll (s ++ renderPath rest) (placeholderOf k) w = _
      rw [show placeholderOf k = '{' :: (k ++ ['}']) from rfl,
        replaceAll_append_nohole (k ++ ['}']) w s (renderPath rest) hs]
      rw [show ('{' :: (k ++ ['}'])) = placeholderOf k from rfl, ih htl]
      rfl
    | hole n =>
      by_cases hnk : n = k
      · subst hnk
        show replaceAll (placeholderOf n ++ renderPath rest) (placeholderOf n) w = _
        rw [show placeholderOf n = '{' :: (n ++ ['}']) from rfl]
        rw [replaceAll_at_match '{' (n ++ ['}']) (renderPath rest) w]
        rw [show ('{' :: (n ++ ['}'])) = placeholderOf n from rfl, ih htl]
        simp [mapSubst, renderPath]
      · show replaceAll (placeholderOf n ++ renderPath rest) (placeholderOf k) w = _
        rw [replaceAll_hole_ne k n (renderPath rest) w hk hhd (Ne.symm hnk), ih htl]
        simp [mapSubst, renderPath, hnk]

theorem containsSub_of_right (pat : Str) :
    ∀ (x r : Str), containsSub r pat = true → containsSub (x ++ r) pat = true := by
  intro x
  induction x with
  | nil => intro r h; simpa using h
  | cons c x ih =>
    intro r h
    show (isPre pat (c :: (x ++ r)) || containsSub (x ++ r) pat) = true
    rw [ih r h]
    simp

theorem containsSub_occurrence (pat : Str) :
    ∀ (a b : Str), containsSub (a ++ (pat ++ b)) pat = true := by
  intro a
  induction a with
  | nil =>
    intro b
    cases pat with
    | nil =>
      cases b with
      | nil => rfl
      | cons c b => simp [containsSub, isPre]
    | cons x p =>
      show (isPre (x :: p) (x :: (p ++ b)) || _) = true
      have := isPre_append_self (x :: p) b
      simp only [List.cons_append] at this
      rw [this]
      simp
  | cons c a ih =>
    intro b
    show (isPre pat (c :: (a ++ (pat ++ b))) || containsSub (a ++ (pat ++ b)) pat) = true
    rw [ih b]
    simp

/-- A placeholder present in a clean path is found by `strings.Contains`. -/
theorem containsSub_of_hole_mem (k : Str) :
    ∀ ps : List PathPiece, PathPiece.hole k ∈ ps →
      containsSub (renderPath ps) (placeholderOf k) = true := by
  intro ps
  induction ps with
  | nil => intro h; simp at h
  | cons pc rest ih =>
    intro hmem
    rcases List.mem_cons.mp hmem with h | h
    · subst h
      show containsSub (placeholderOf k ++ renderPath rest) (placeholderOf k) = true
      have := containsSub_occurrence (placeholderOf k) [] (renderPath rest)
      simpa using this
    · cases pc with
      | lit s => exact containsSub_of_right _ s _ (ih h)
      | hole m => exact containsSub_of_right _ (placeholderOf m) _ (ih h)

theorem mapSubst_of_not_mem (k w : Str) :
    ∀ ps : List PathPiece, PathPiece.hole k ∉ ps → mapSubst k w ps = ps := by
  intro ps
  induction ps with
  | nil => intro _; rfl
  | cons pc rest ih =>
    intro hmem
    have htl : PathPiece.hole k ∉ rest := fun h => hmem (List.mem_cons_of_mem pc h)
    cases pc with
    | lit s => simp [mapSubst] at ih ⊢; exact ih htl
    | hole n =>
      have hnk : n ≠ k := by
        intro h; subst h; exact hmem (List.mem_cons_self _ _)
      simp [mapSubst, hnk] at ih ⊢
      exact ih htl

theorem cleanPieces_mapSubst (k w : Str) (hw : braceFree w = true)
    (ps : List PathPiece) (hps : cleanPieces ps) :
    cleanPieces (mapSubst k w ps) := by
  intro pc hpc
  rcases List.mem_map.mp hpc with ⟨q, hq, hmap⟩
  cases q with
  | lit s => rw [← hmap]; exact hps _ hq
  | hole n =>
    by_cases hnk : n = k
    · simp [hnk] at hmap
      rw [← hmap]
      exact hw
    · simp [hnk] at hmap
      rw [← hmap]
      exact hps _ hq

/-- The argument fold of `buildURL`, viewed on structured paths: each
processed argument replaces its placeholders. -/
theorem foldl_substStep_render :
    ∀ (args : List (Str × Value)) (ps : List PathPiece),
      cleanPieces ps → cleanArgs args →
      args.foldl substStep (renderPath ps) =
        renderPath (args.foldl (fun acc kv => mapSubst kv.1 (goFormat kv.2) acc) ps) := by
  intro args
  induction args with
  | nil => intro ps _ _; rfl
  | cons kv rest ih =>
    intro ps hps hargs
    obtain ⟨k, v⟩ := kv
    have hk : braceFree k = true := (hargs (k, v) (List.mem_cons_self _ _)).1
    have hv : braceFree (goFormat v) = true := (hargs (k, v) (List.mem_cons_self _ _)).2
    have htail : cleanArgs rest := fun q hq => hargs q (List.mem_cons_of_mem _ hq)
    rw [List.foldl_cons, List.foldl_cons]
    by_cases hc : containsSub (renderPath ps) (placeholderOf k) = true
    · have hstep : substStep (renderPath ps) (k, v) =
          renderPath (mapSubst k (goFormat v) ps) := by
        rw [substStep]
        simp only [hc, if_true]
        exact replaceAll_render k (goFormat v) hk ps hps
      rw [hstep]
      exact ih _ (cleanPieces_mapSubst k (goFormat v) hv ps hps) htail
    · have hnm : PathPiece.hole k ∉ ps := fun h => hc (containsSub_of_hole_mem k ps h)
      have hstep : substStep (renderPath ps) (k, v) = renderPath ps := by
        rw [substStep]
        simp only [hc, if_false]
        simp [Bool.not_eq_true] at hc
        simp [hc]
      rw [hstep, mapSubst_of_not_mem k (goFormat v) ps hnm]
      exact ih ps hps htail

theorem renderPath_eq_substPieces_nil :
    ∀ ps : List PathPiece, renderPath ps = substPieces [] ps := by
  intro ps
  induction ps with
  | nil => rfl
  | cons pc rest ih =>
    cases pc with
    | lit s => simp [renderPath, substPieces, ih]
    | hole n => simp [renderPath, substPieces, lookupArg, ih]

theorem substPieces_mapSubst (k : Str) (v : Value) (rest : List (Str × Value)) :
    ∀ ps : List PathPiece,
      substPieces rest (mapSubst k (goFormat v) ps) = substPieces ((k, v) :: rest) ps := by
  intro ps
  induction ps with
  | nil => rfl
  | cons pc tl ih =>
    cases pc with
    | lit s =>
      show substPieces rest (PathPiece.lit s :: mapSubst k (goFormat v) tl) = _
      simp [substPieces, ih]
    | hole n =>
      simp only [mapSubst, List.map_cons] at ih ⊢
      by_cases hnk : n = k
      · subst hnk
        simp [substPieces, lookupArg, ih]
      · simp [substPieces, lookupArg, hnk, Ne.symm hnk, ih]

theorem render_fold_eq_substPieces :
    ∀ (args : List (Str × Value)) (ps : List PathPiece),
      renderPath (args.foldl (fun acc kv => mapSubst kv.1 (goFormat kv.2) acc) ps) =
        substPieces args ps := by
  intro args
  induction args with
  | nil => intro ps; exact renderPath_eq_substPieces_nil ps
  | cons kv rest ih =>
    intro ps
    obtain ⟨k, v⟩ := kv
    rw [List.foldl_cons]
    rw [ih (mapSubst k (goFormat v) ps)]
    exact substPieces_mapSubst k v rest ps

theorem lookupArg_setArg_self (k : Str) (v : Value) :
    ∀ args : List (Str × Value), lookupArg (setArg args k v) k = some v := by
  intro args
  induction args with
  | nil => simp [setArg, lookupArg]
  | cons kv rest ih =>
    obtain ⟨k', v'⟩ := kv
    by_cases h : k' = k
    · simp [setArg, h, lookupArg]
    · simp [setArg, h, lookupArg, ih]

theorem lookupArg_setArg_other (k k' : Str) (v : Value) (hne : k' ≠ k) :
    ∀ args : List (Str × Value),
      lookupArg (setArg args k v) k' = lookupArg args k' := by
  intro args
  induction args with
  | nil => simp [setArg, lookupArg, Ne.symm hne]
  | cons kv rest ih =>
    obtain ⟨k'', v''⟩ := kv
    by_cases h : k'' = k
    · subst h
      simp [setArg, lookupArg, Ne.symm hne]
    · simp [setArg, h, lookupArg, ih]

theorem substPieces_setArg_org (ov : Value) (args : List (Str × Value)) :
    ∀ ps : List PathPiece,
      substPieces (setArg args orgKey ov) ps = claimSubst ov args ps := by
  intro ps
  induction ps with
  | nil => rfl
  | cons pc rest ih =>
    cases pc with
    | lit s => simp [substPieces, claimSubst, ih]
    | hole n =>
      by_cases h : n = orgKey
      · subst h
        simp [substPieces, claimSubst, lookupArg_setArg_self, ih]
      · simp [substPieces, claimSubst, h, lookupArg_setArg_other orgKey n ov h, ih]

theorem substPieces_eq_claimSubst_no_org (ov : Value) (args : List (Str × Value)) :
    ∀ ps : List PathPiece, PathPiece.hole orgKey ∉ ps →
      substPieces args ps = claimSubst ov args ps := by
  intro ps
  induction ps with
  | nil => intro _; rfl
  | cons pc rest ih =>
    intro hmem
    have htl : PathPiece.hole orgKey ∉ rest := fun h => hmem (List.mem_cons_of_mem pc h)
    cases pc with
    | lit s => simp [substPieces, claimSubst, ih htl]
    | hole n =>
      have hn : n ≠ orgKey := by
        intro h; subst h; exact hmem (List.mem_cons_self _ _)
      simp [substPieces, claimSubst, hn, ih htl]

theorem cleanArgs_setArg (args : List (Str × Value)) (k : Str) (v : Value)
    (ha : cleanArgs args) (hk : braceFree k = true)
    (hv : braceFree (goFormat v) = true) : cleanArgs (setArg args k v) := by
  induction args with
  | nil =>
    intro kv hkv
    simp [setArg] at hkv
    rw [hkv]
    exact ⟨hk, hv⟩
  | cons kv' rest ih =>
    intro kv hkv
    obtain ⟨k', v'⟩ := kv'
    have hhd := ha (k', v') (List.mem_cons_self _ _)
    have htl : cleanArgs rest := fun q hq => ha q (List.mem_cons_of_mem _ hq)
    by_cases h : k' = k
    · simp [setArg, h] at hkv
      rcases hkv with hkv | hkv
      · rw [hkv]; exact ⟨hk, hv⟩
      · exact htl _ hkv
    · simp [setArg, h] at hkv
      rcases hkv with hkv | hkv
      · rw [hkv]; exact hhd
      · exact ih htl _ hkv

/-- Concrete structured path for the C1 witness: `/v1/orgs/{org_id}/confs/{conf_id}`. -/
def c1Pieces : List PathPiece :=
  [PathPiece.lit (strOf "/v1/orgs/"), PathPiece.hole orgKey,
   PathPiece.lit (strOf "/confs/"), PathPiece.hole (strOf "conf_id")]

/-- Concrete arguments for the C1 witness: a matching `conf_id` plus a
caller-supplied `org_id` that must be ignored. -/
def c1Args : List (Str × Value) :=
  [(strOf "conf_id", Value.vStr (strOf "abc")), (orgKey, Value.vStr (strOf "HACK"))]

/-- Claim C1 (amended): when the ambient context supplies an organization id,
the URL built by `executeOperation`/`buildURL` substitutes every `{name}`
placeholder with the string form of the matching argument, substitutes the
reserved `{org_id}` placeholder with the ambient value and never with a
caller-supplied `org_id` argument, and carries an unmatched placeholder
through unreplaced.  Paths are quantified as arbitrary brace-free literal
segments interleaved with brace-free placeholder names, and arguments as
arbitrary key/value maps with brace-free keys and formatted values. -/
theorem c1_path_substitution (api : Str) (ps : List PathPiece)
    (args : List (Str × Value)) (ov : Value)
    (hapi : braceFree api = true) (hps : cleanPieces ps) (ha : cleanArgs args)
    (hov : braceFree (goFormat ov) = true) :
    executeURL api (renderPath ps) (some ov) args = api ++ claimSubst ov args ps := by
  have hclean' : cleanPieces (PathPiece.lit api :: ps) := by
    intro pc hpc
    rcases List.mem_cons.mp hpc with h | h
    · subst h; exact hapi
    · exact hps pc h
  have hrender : api ++ renderPath ps = renderPath (PathPiece.lit api :: ps) := rfl
  rw [executeURL, injectOrg]
  by_cases hc : containsSub (renderPath ps) (placeholderOf orgKey) = true
  · rw [if_pos hc]
    have ha' : cleanArgs (setArg args orgKey ov) :=
      cleanArgs_setArg args orgKey ov ha (by decide) hov
    show buildURL api (renderPath ps) (setArg args orgKey ov) = _
    rw [buildURL, hrender, foldl_substStep_render _ _ hclean' ha',
      render_fold_eq_substPieces]
    show api ++ substPieces (setArg args orgKey ov) ps = _
    rw [substPieces_setArg_org]
  · rw [if_neg hc]
    rw [buildURL, hrender, foldl_substStep_render _ _ hclean' ha,
      render_fold_eq_substPieces]
    show api ++ substPieces args ps = _
    have hnm : PathPiece.hole orgKey ∉ ps :=
      fun h => hc (containsSub_of_hole_mem orgKey ps h)
    rw [substPieces_eq_claimSubst_no_org ov args ps hnm]

/-- Claim C1 counterexample: the claim as stated says a caller-supplied
`org_id` argument is never used for the `{org_id}` placeholder.  In the code,
when the ambient context carries no org id (`ctx.Value(OrgIDKey) == nil`),
the caller-supplied `org_id` argument remains in the argument map and IS
substituted into the path: with no ambient org id, the caller argument
`org_id="evil"` changes the built URL from `/v1/orgs/{org_id}` to
`/v1/orgs/evil`, so it is not ignored. -/
theorem c1_counterexample :
    executeURL [] (strOf "/v1/orgs/{org_id}") none [(orgKey, Value.vStr (strOf "evil"))]
        = strOf "/v1/orgs/evil" ∧
      executeURL [] (strOf "/v1/orgs/{org_id}") none [] = strOf "/v1/orgs/{org_id}" ∧
      strOf "/v1/orgs/evil" ≠ strOf "/v1/orgs/{org_id}" := by
  exact ⟨by decide, by decide, by decide⟩

/-- Witness for C1: the spec's own example, path `/v1/orgs/{org_id}/confs/{conf_id}`
with ambient org id `org-1`, argument `conf_id=abc`, and a caller-supplied
`org_id=HACK` that is ignored; the built URL is
`https://api/v1/orgs/org-1/confs/abc` with no `{...}` tokens left. -/
theorem c1_witness :
    (braceFree (strOf "https://api") = true ∧ cleanPieces c1Pieces ∧
      cleanArgs c1Args ∧ braceFree (goFormat (Value.vStr (strOf "org-1"))) = true) ∧
      executeURL (strOf "https://api") (renderPath c1Pieces)
          (some (Value.vStr (strOf "org-1"))) c1Args
        = strOf "https://api" ++
            claimSubst (Value.vStr (strOf "org-1")) c1Args c1Pieces ∧
      strOf "https://api" ++ claimSubst (Value.vStr (strOf "org-1")) c1Args c1Pieces
        = strOf "https://api/v1/orgs/org-1/confs/abc" := by
  refine ⟨⟨by decide, by decide, by decide, by decide⟩, ?_, by decide⟩
  exact c1_path_substitution _ _ _ _ (by decide) (by decide) (by decide) (by decide)

/-! Data model of the OpenAPI specification structures
(`pkg/tools/server.go` lines 26-69; the unnamed sibling revision adds a
`Required` list to `Definition`, noted below). -/

/-- Model of `ParamSchema` (server.go lines 59-64). -/
structure ParamSchema where
  ty : Str
  enum : List Str
  description : Str
  ref : Str
deriving DecidableEq, Repr

/-- Model of `Parameter` (server.go lines 50-57).  `paramIn` models the Go field `In`. -/
structure Parameter where
  name : Str
  paramIn : Str
  ty : Str
  required : Bool
  description : Str
  schema : Option ParamSchema
deriving DecidableEq, Repr

/-- Model of `Definition` (sibling revision lines 67-71).  The `server.go` revision's
`Definition` struct has no `Required` field; its synthesizer below simply
never reads `required`. -/
structure Definition where
  ty : Str
  properties : List (Str × ParamSchema)
  required : List Str
deriving DecidableEq, Repr

/-- Model of `Operation` (server.go lines 41-48). -/
structure Operation where
  operationID : Str
  summary : Str
  description : Str
  tags : List Str
  parameters : List Parameter
deriving DecidableEq, Repr

/-! C2: the operation filter. -/

/-- Model of `Server.hasAllowedTag` (pkg/tools/server.go lines 171-179, identical in
the sibling revision): true iff some operation tag is a member of the
server's allowed-tag set.  The Go set `map[string]struct{}` built from the
allowed-tags slice is modelled by list membership. -/
def hasAllowedTag (allowedTags tags : List Str) : Bool :=
  tags.any fun tag => allowedTags.contains tag

/-- Model of `hasAllowedTag` of pkg/swagger2mcp/swagger2mcp.go lines 137-150: an empty
allow-list retains everything, otherwise tag lists must intersect. -/
def hasAllowedTagSwagger (tags allowedTags : List Str) : Bool :=
  if allowedTags.isEmpty then true
  else tags.any fun tag => allowedTags.any fun allowed => tag == allowed

/-- The retention step of `Server.generateTools` (server.go lines 150-163):
operations whose tags fail `hasAllowedTag` are skipped. -/
def retainedOperations (allowedTags : List Str) (ops : List Operation) :
    List Operation :=
  ops.filter fun op => hasAllowedTag allowedTags op.tags

/-- The retention step of `createToolToHandlers`
(swagger2mcp.go lines 71-77). -/
def retainedOperationsSwagger (ops : List Operation) (allowedTags : List Str) :
    List Operation :=
  ops.filter fun op => hasAllowedTagSwagger op.tags allowedTags

/-! C3/C9: tool-name derivation and normalization. -/

/-- The regex class `[A-Z]` of `snakeCaseRegex`. -/
def isUpperChar (c : Char) : Bool := 65 ≤ c.toNat && c.toNat ≤ 90

/-- The regex class `[a-z0-9]` of `snakeCaseRegex`. -/
def isLowerDigit (c : Char) : Bool :=
  (97 ≤ c.toNat && c.toNat ≤ 122) || (48 ≤ c.toNat && c.toNat ≤ 57)

/-- ASCII lowercasing of one character, as Go `strings.ToLower` acts on the
ASCII letters (tool names in this repository are ASCII; Go additionally folds
non-ASCII letters, which no claim exercises). -/
def asciiLower (c : Char) : Char :=
  if 65 ≤ c.toNat ∧ c.toNat ≤ 90 then Char.ofNat (c.toNat + 32) else c

/-- Go `strings.ToLower` on an ASCII string. -/
def lowerStr (s : Str) : Str := s.map asciiLower

/-- Model of `snakeCaseRegex.ReplaceAllString(str, "${1}_${2}")`: scan left to right,
inserting `_` between a `[a-z0-9]` character and a following `[A-Z]`
character; a matched pair is consumed, so matches never overlap. -/
def snakeInsert : Str → Str
  | a :: b :: rest =>
    if isLowerDigit a && isUpperChar b then a :: '_' :: b :: snakeInsert rest
    else a :: snakeInsert (b :: rest)
  | s => s

/-- Model of `Server.toSnakeCase` (server.go lines 221-229, identical in the sibling
revision): replace spaces with underscores, apply the snake-case regex, then
lowercase. -/
def toSnakeCase (s : Str) : Str :=
  (snakeInsert (s.map fun c => if c = ' ' then '_' else c)).map asciiLower

/-- The reserved filter-marker tag (`aiExclusionTag = "AI"`, server.go line 19). -/
def aiTag : Str := strOf "AI"

/-- Go `strings.EqualFold` on ASCII text. -/
def equalFold (a b : Str) : Bool := lowerStr a == lowerStr b

/-- The tag loop of `Server.generateToolName` (server.go lines 201-206):
return the first tag that is not the AI filter marker. -/
def pickNonAITag : List Str → Option Str
  | [] => none
  | t :: rest => if equalFold t aiTag then pickNonAITag rest else some t

/-- Go `strings.Trim(s, "_")`. -/
def trimUnderscores (s : Str) : Str :=
  ((s.dropWhile (· == '_')).reverse.dropWhile (· == '_')).reverse

/-- The path cleanup in `Server.generateToolName` (server.go lines 213-216):
`/` becomes `_`, braces are removed, leading/trailing underscores trimmed. -/
def cleanedPath (path : Str) : Str :=
  trimUnderscores
    (((path.map fun c => if c = '/' then '_' else c).filter
      fun c => c != '{') |>.filter fun c => c != '}')

/-- Model of `Server.generateToolName` (server.go lines 199-219, identical in the
sibling revision): first non-AI tag, else operation id, else
`lower(method) + "_" + snake(cleaned path)`. -/
def generateToolName (path method : Str) (op : Operation) : Str :=
  match pickNonAITag op.tags with
  | some t => toSnakeCase t
  | none =>
    if op.operationID ≠ [] then toSnakeCase op.operationID
    else lowerStr method ++ '_' :: toSnakeCase (cleanedPath path)

/-- The name resolution of the amended claim, written with `List.find?`:
precedence (1) first tag that is not the reserved filter marker, normalized;
(2) else the explicit identifier, normalized; (3) else the lowercased method
prefixed to the cleaned path, normalized. -/
def resolverSpec (path method : Str) (op : Operation) : Str :=
  match op.tags.find? fun t => !equalFold t aiTag with
  | some t => toSnakeCase t
  | none =>
    if op.operationID ≠ [] then toSnakeCase op.operationID
    else lowerStr method ++ '_' :: toSnakeCase (cleanedPath path)

theorem hasAllowedTag_iff (allowedTags tags : List Str) :
    hasAllowedTag allowedTags tags = true ↔ ∃ t ∈ tags, t ∈ allowedTags := by
  simp [hasAllowedTag, List.any_eq_true]

theorem hasAllowedTagSwagger_iff (tags allowedTags : List Str) :
    hasAllowedTagSwagger tags allowedTags = true ↔
      allowedTags = [] ∨ ∃ t ∈ tags, t ∈ allowedTags := by
  rw [hasAllowedTagSwagger]
  by_cases h : allowedTags.isEmpty
  · simp [h, List.isEmpty_iff.mp h]
  · rw [if_neg h]
    have hne : allowedTags ≠ [] := fun hh => h (by simp [hh])
    simp [List.any_eq_true, hne]

/-- Claim C2 (amended): both filters retain exactly the operations whose tag
set intersects the allow-list when the allow-list is nonempty; for an empty
allow-list, the swagger2mcp filter retains every operation while the tools
filter retains none. -/
theorem c2_operation_filter (allowedTags : List Str) (ops : List Operation)
    (op : Operation) :
    (op ∈ retainedOperations allowedTags ops ↔
       op ∈ ops ∧ ∃ t ∈ op.tags, t ∈ allowedTags) ∧
      (op ∈ retainedOperationsSwagger ops allowedTags ↔
        op ∈ ops ∧ (allowedTags = [] ∨ ∃ t ∈ op.tags, t ∈ allowedTags)) := by
  constructor
  · rw [retainedOperations, List.mem_filter, hasAllowedTag_iff]
  · rw [retainedOperationsSwagger, List.mem_filter, hasAllowedTagSwagger_iff]

/-- Concrete operation used in the C2 counterexample: tagged `Logs` only. -/
def c2Op : Operation :=
  { operationID := [], summary := [], description := [],
    tags := [strOf "Logs"], parameters := [] }

/-- Claim C2 counterexample: with an empty allow-list the claim says all
operations are retained, but the tools filter (`Server.hasAllowedTag`, which
has no empty-allow-list case) retains none: the retained set is empty, not
`[c2Op]`. -/
theorem c2_counterexample :
    retainedOperations [] [c2Op] = [] ∧
      ([] : List Operation) ≠ [c2Op] ∧
      retainedOperationsSwagger [c2Op] [] = [c2Op] := by
  exact ⟨by decide, by decide, by decide⟩

theorem pickNonAITag_eq_find (tags : List Str) :
    pickNonAITag tags = tags.find? fun t => !equalFold t aiTag := by
  induction tags with
  | nil => rfl
  | cons t rest ih =>
    rw [pickNonAITag, List.find?]
    by_cases h : equalFold t aiTag = true
    · simp [h, ih]
    · simp [Bool.not_eq_true] at h
      simp [h, ih]

/-- Claim C3 (amended): the tools name resolver uses the precedence
(1) first tag that is not the reserved `AI` filter marker, normalized to
lowercase snake case; (2) otherwise the operation's explicit identifier,
normalized; (3) otherwise the lowercased method prefixed with an underscore
to the path with `/` replaced by `_`, braces removed, and surrounding
underscores trimmed, normalized. -/
theorem c3_tool_name_precedence (path method : Str) (op : Operation) :
    generateToolName path method op = resolverSpec path method op := by
  rw [generateToolName, resolverSpec, pickNonAITag_eq_find]

/-- Concrete operation for the C3 counterexample: it has both an explicit
identifier and a non-marker tag. -/
def c3Op : Operation :=
  { operationID := strOf "opX", summary := [], description := [],
    tags := [strOf "Pipelines"], parameters := [] }

/-- Claim C3 counterexample: the claim gives the explicit identifier
precedence over tags, but `generateToolName` checks tags first: an operation
with identifier `opX` and tag `Pipelines` is named `pipelines`, not the
identifier (`opX`) nor its normalization (`op_x`). -/
theorem c3_counterexample :
    generateToolName (strOf "/v1/x") (strOf "get") c3Op = strOf "pipelines" ∧
      strOf "pipelines" ≠ strOf "opX" ∧
      strOf "pipelines" ≠ toSnakeCase (strOf "opX") := by
  exact ⟨by decide, by decide, by decide⟩

theorem toNat_ofNat_of_valid {n : Nat} (h : n < 55296) : (Char.ofNat n).toNat = n := by
  rw [Char.ofNat, dif_pos (Or.inl h)]
  rfl

theorem asciiLower_toNat_of_upper (c : Char) (h : 65 ≤ c.toNat ∧ c.toNat ≤ 90) :
    (asciiLower c).toNat = c.toNat + 32 := by
  rw [asciiLower, if_pos h]
  exact toNat_ofNat_of_valid (by omega)

theorem isUpperChar_asciiLower (c : Char) : isUpperChar (asciiLower c) = false := by
  by_cases h : 65 ≤ c.toNat ∧ c.toNat ≤ 90
  · have ht := asciiLower_toNat_of_upper c h
    rw [Bool.eq_false_iff]
    intro hcontra
    rw [isUpperChar, Bool.and_eq_true, decide_eq_true_iff, decide_eq_true_iff] at hcontra
    omega
  · rw [asciiLower, if_neg h, Bool.eq_false_iff]
    intro hcontra
    rw [isUpperChar, Bool.and_eq_true, decide_eq_true_iff, decide_eq_true_iff] at hcontra
    exact h hcontra

theorem asciiLower_fix_of_not_upper (c : Char) (h : isUpperChar c = false) :
    asciiLower c = c := by
  rw [asciiLower, if_neg]
  intro hcontra
  rw [isUpperChar, decide_eq_true hcontra.1, decide_eq_true hcontra.2] at h
  simp at h

theorem asciiLower_ne_space (d : Char) (h : d ≠ ' ') : asciiLower d ≠ ' ' := by
  by_cases hu : 65 ≤ d.toNat ∧ d.toNat ≤ 90
  · have ht := asciiLower_toNat_of_upper d hu
    intro hcontra
    rw [hcontra] at ht
    have hsp : (' ' : Char).toNat = 32 := by decide
    omega
  · rw [asciiLower, if_neg hu]
    exact h

theorem map_fix_of_all {f : Char → Char} :
    ∀ s : Str, (∀ c ∈ s, f c = c) → s.map f = s := by
  intro s
  induction s with
  | nil => intro _; rfl
  | cons c rest ih =>
    intro h
    rw [List.map_cons, h c (List.mem_cons_self _ _),
      ih fun d hd => h d (List.mem_cons_of_mem _ hd)]

theorem mem_snakeInsert (s : Str) : ∀ c ∈ snakeInsert s, c ∈ s ∨ c = '_' := by
  induction s using snakeInsert.induct with
  | case1 a b rest hcond ih =>
    intro c hc
    rw [snakeInsert, if_pos hcond] at hc
    rcases List.mem_cons.mp hc with h | hc
    · exact Or.inl (by simp [h])
    rcases List.mem_cons.mp hc with h | hc
    · exact Or.inr h
    rcases List.mem_cons.mp hc with h | hc
    · exact Or.inl (by simp [h])
    · rcases ih c hc with h | h
      · exact Or.inl (by simp [h])
      · exact Or.inr h
  | case2 a b rest hcond ih =>
    intro c hc
    rw [snakeInsert, if_neg hcond] at hc
    rcases List.mem_cons.mp hc with h | hc
    · exact Or.inl (by simp [h])
    · rcases ih c hc with h | h
      · exact Or.inl (List.mem_cons_of_mem _ h)
      · exact Or.inr h
  | case3 s hshape =>
    intro c hc
    cases s with
    | nil => simp [snakeInsert] at hc
    | cons a rest =>
      cases rest with
      | nil => exact Or.inl (by simpa [snakeInsert] using hc)
      | cons b rest' => exact absurd rfl (hshape a b rest')

theorem snakeInsert_fix_of_no_upper :
    ∀ s : Str, (∀ c ∈ s, isUpperChar c = false) → snakeInsert s = s := by
  intro s
  induction s with
  | nil => intro _; rfl
  | cons a rest ih =>
    intro h
    cases rest with
    | nil => rfl
    | cons b rest' =>
      have hb : isUpperChar b = false := h b (by simp)
      show (if isLowerDigit a && isUpperChar b then a :: '_' :: b :: snakeInsert rest'
        else a :: snakeInsert (b :: rest')) = a :: b :: rest'
      rw [hb, Bool.and_false, if_neg (by simp),
        ih fun d hd => h d (List.mem_cons_of_mem _ hd)]

theorem toSnakeCase_chars (s : Str) :
    ∀ c ∈ toSnakeCase s, isUpperChar c = false ∧ c ≠ ' ' := by
  intro c hc
  rw [toSnakeCase] at hc
  rcases List.mem_map.mp hc with ⟨d, hd, rfl⟩
  refine ⟨isUpperChar_asciiLower d, ?_⟩
  have hd' := mem_snakeInsert _ d hd
  have hdne : d ≠ ' ' := by
    rcases hd' with h | h
    · rcases List.mem_map.mp h with ⟨e, _, rfl⟩
      by_cases hsp : e = ' '
      · simp [hsp]
      · simp [hsp]
    · rw [h]
      decide
  exact asciiLower_ne_space d hdne

/-- Claim C9: the name-normalization function `toSnakeCase` is idempotent —
applying it to its own output returns that output unchanged. -/
theorem c9_normalization_idempotent (s : Str) :
    toSnakeCase (toSnakeCase s) = toSnakeCase s := by
  have hchars := toSnakeCase_chars s
  rw [toSnakeCase,
    map_fix_of_all (toSnakeCase s) fun c hc => if_neg (hchars c hc).2,
    snakeInsert_fix_of_no_upper (toSnakeCase s) fun c hc => (hchars c hc).1,
    map_fix_of_all (toSnakeCase s) fun c hc =>
      asciiLower_fix_of_not_upper c (hchars c hc).1]

/-! Tool synthesis.  The `mcp-go` library layer is modelled from its
documented behavior: each `WithString`/`WithNumber`/`WithBoolean` option
builds one property map starting from its type, applies the property
options, promotes a `required: true` entry of the property map into the
tool's top-level required list, and stores the property under the field
name in insertion order. -/

/-- One schema field as mcp-go materializes it. -/
structure PropMap where
  ty : Str
  description : Option Str
  enum : List Str
  req : Bool
deriving DecidableEq, Repr

/-- The synthesized tool: name, description, input-schema fields and
top-level required list. -/
structure Tool where
  name : Str
  description : Str
  properties : List (Str × PropMap)
  required : List Str
deriving DecidableEq, Repr

/-- mcp-go `ToolOption`. -/
abbrev ToolOption := Tool → Tool

/-- mcp-go `PropertyOption`. -/
abbrev PropertyOption := PropMap → PropMap

/-- Modelled from mcp-go: the common body of `WithString`/`WithNumber`/
`WithBoolean`. -/
def mcpField (tyName name : Str) (opt : PropertyOption) : ToolOption :=
  fun t =>
    let m := opt { ty := tyName, description := none, enum := [], req := false }
    if m.req then
      { t with
        required := t.required ++ [name]
        properties := t.properties ++ [(name, { m with req := false })] }
    else { t with properties := t.properties ++ [(name, m)] }

/-- mcp-go `mcp.WithString`. -/
def mcpWithString (name : Str) (opt : PropertyOption) : ToolOption :=
  mcpField (strOf "string") name opt

/-- mcp-go `mcp.WithNumber`. -/
def mcpWithNumber (name : Str) (opt : PropertyOption) : ToolOption :=
  mcpField (strOf "number") name opt

/-- mcp-go `mcp.WithBoolean`. -/
def mcpWithBoolean (name : Str) (opt : PropertyOption) : ToolOption :=
  mcpField (strOf "boolean") name opt

/-- mcp-go `mcp.WithDescription`. -/
def mcpWithDescription (d : Str) : ToolOption := fun t => { t with description := d }

/-- Model of `withParam` (server.go lines 449-463, identical in the sibling revision):
set the description (rewritten to `Parameter: <name>` whenever nonempty),
propagate the required flag into the property map, and copy a nonempty enum
from the parameter schema. -/
def withParam (param : Parameter) : PropertyOption :=
  let desc :=
    if param.description ≠ [] then strOf "Parameter: " ++ param.name
    else param.description
  fun m =>
    let m1 : PropMap := { m with description := some desc }
    let m2 := if param.required then { m1 with req := true } else m1
    match param.schema with
    | some sch => if sch.enum ≠ [] then { m2 with enum := sch.enum } else m2
    | none => m2

/-- Model of `withParamSchema` (sibling revision lines 456-466): set description and
a nonempty enum; never touches the required entry. -/
def withParamSchema (prop : ParamSchema) : PropertyOption :=
  let desc :=
    if prop.description ≠ [] then strOf "Parameter: " ++ prop.ty
    else prop.description
  fun m =>
    let m1 : PropMap := { m with description := some desc }
    if prop.enum ≠ [] then { m1 with enum := prop.enum } else m1

/-- Model of `withRequired` (sibling revision lines 499-507): append the given names
to the tool's top-level required list. -/
def withRequired (names : List Str) : ToolOption :=
  fun t => if names ≠ [] then { t with required := t.required ++ names } else t

/-- Model of `refPrefix = "#/definitions/"` (server.go line 23). -/
def refPfx : Str := strOf "#/definitions/"

/-- Go `strings.TrimPrefix(r, refPrefix)`. -/
def trimRefPfx (r : Str) : Str :=
  if isPre refPfx r then r.drop refPfx.length else r

/-- Definition lookup in the spec's `definitions` map. -/
def lookupDef : List (Str × Definition) → Str → Option Definition
  | [], _ => none
  | (k, d) :: rest, n => if k = n then some d else lookupDef rest n

/-- The reference-resolution steps shared by both `withBodyParam` revisions:
`nil`/empty-ref body schemas and dangling references both fail to resolve
(and the code treats the two identically). -/
def resolveRef (param : Parameter) (defs : List (Str × Definition)) :
    Option Definition :=
  match param.schema with
  | none => none
  | some sch => if sch.ref = [] then none else lookupDef defs (trimRefPfx sch.ref)

/-- The type switch on a definition property (sibling revision lines
481-492): string/integer/number/boolean, defaulting to string. -/
def typedFieldOf (name : Str) (prop : ParamSchema) : ToolOption :=
  if prop.ty = strOf "string" then mcpWithString name (withParamSchema prop)
  else if prop.ty = strOf "integer" ∨ prop.ty = strOf "number" then
    mcpWithNumber name (withParamSchema prop)
  else if prop.ty = strOf "boolean" then mcpWithBoolean name (withParamSchema prop)
  else mcpWithString name (withParamSchema prop)

/-- Model of `withBodyParam` of the sibling revision (lines 468-507): on a resolvable
reference, flatten the definition into one typed field per property followed
by `withRequired` of the definition's own required list; otherwise emit a
single string field named after the body parameter. -/
def withBodyParamFlat (param : Parameter) (defs : List (Str × Definition)) :
    List ToolOption :=
  match resolveRef param defs with
  | none => [mcpWithString param.name (withParam param)]
  | some defn =>
    (defn.properties.map fun np => typedFieldOf np.1 np.2) ++
      [withRequired defn.required]

/-- Simplified JSON rendering of a definition's property map, standing in for
`json.Marshal(definition.Properties)` in the server.go `withBodyParam`
(server.go keeps the body a single string field and only serializes the
properties into its description; Go sorts map keys and omits empty fields,
which no theorem below depends on). -/
def jsonOfProps (props : List (Str × ParamSchema)) : Str :=
  let entries := props.map fun np =>
    '"' :: np.1 ++ strOf "\":\x7b\"type\":\"" ++ np.2.ty ++ strOf "\"\x7d"
  let rec joinComma : List Str → Str
    | [] => []
    | [x] => x
    | x :: rest => x ++ ',' :: joinComma rest
  '{' :: joinComma entries ++ ['}']

/-- Model of `withBodyParam` of pkg/tools/server.go (lines 465-486): the body
parameter stays ONE string field named after the parameter; a resolvable
definition only contributes text to that field's description.  The server.go
revision's `Definition` struct has no required list and none is propagated. -/
def withBodyParamDesc (param : Parameter) (defs : List (Str × Definition)) :
    PropertyOption :=
  let desc :=
    if param.description ≠ [] then strOf "Parameter: " ++ param.name
    else param.description
  fun m =>
    match resolveRef param defs with
    | none => { m with description := some (desc ++ strOf " (JSON Payload)") }
    | some defn =>
      { m with
        description := some (desc ++
          strOf ". It is JSON Payload with following fields: " ++
          jsonOfProps defn.properties) }

/-- The scalar-parameter type switch shared by both `addParameterToTool`
revisions (server.go lines 244-261). -/
def scalarParamField (param : Parameter) : ToolOption :=
  let pt :=
    if param.ty = [] then
      match param.schema with
      | some sch => sch.ty
      | none => []
    else param.ty
  if pt = strOf "string" then mcpWithString param.name (withParam param)
  else if pt = strOf "integer" ∨ pt = strOf "number" then
    mcpWithNumber param.name (withParam param)
  else if pt = strOf "boolean" then mcpWithBoolean param.name (withParam param)
  else mcpWithString param.name (withParam param)

/-- Model of `Server.addParameterToTool` of the sibling revision (lines 197-227):
skip any parameter named `org_id` (case-insensitively), flatten body
parameters, and map scalar parameters through the type switch. -/
def addParameterToTool (defs : List (Str × Definition)) (param : Parameter) :
    List ToolOption :=
  if equalFold param.name orgKey then []
  else if param.paramIn = strOf "body" then withBodyParamFlat param defs
  else [scalarParamField param]

/-- Model of `Server.addParameterToTool` of pkg/tools/server.go (lines 231-262): same
shape, but the body parameter becomes a single string field whose
description embeds the definition. -/
def addParameterToToolV1 (defs : List (Str × Definition)) (param : Parameter) :
    List ToolOption :=
  if equalFold param.name orgKey then []
  else if param.paramIn = strOf "body" then
    [mcpWithString param.name (withBodyParamDesc param defs)]
  else [scalarParamField param]

/-- ASCII uppercasing (Go `strings.ToUpper` on ASCII). -/
def asciiUpper (c : Char) : Char :=
  if 97 ≤ c.toNat ∧ c.toNat ≤ 122 then Char.ofNat (c.toNat - 32) else c

/-- Model of `getDescription` (server.go lines 419-427): description, else summary,
else `"METHOD path"`. -/
def getDescription (path method : Str) (op : Operation) : Str :=
  if op.description ≠ [] then op.description
  else if op.summary ≠ [] then op.summary
  else method.map asciiUpper ++ ' ' :: path

/-- Apply tool options in order (`mcp.NewTool`). -/
def applyOpts (t : Tool) (opts : List ToolOption) : Tool :=
  opts.foldl (fun t o => o t) t

/-- The empty tool `mcp.NewTool` starts from. -/
def newTool (name : Str) : Tool :=
  { name := name, description := [], properties := [], required := [] }

/-- Model of `Server.createToolFromOperation` of the sibling revision (lines
146-162): name, `WithDescription`, then each parameter's options in order. -/
def createToolFromOperation (defs : List (Str × Definition)) (path method : Str)
    (op : Operation) : Tool :=
  applyOpts (newTool (generateToolName path method op))
    (mcpWithDescription (getDescription path method op) ::
      (op.parameters.map (addParameterToTool defs)).flatten)

/-- Model of `Server.createToolFromOperation` of pkg/tools/server.go (lines 181-197),
differing only in the body-parameter handling. -/
def createToolFromOperationV1 (defs : List (Str × Definition)) (path method : Str)
    (op : Operation) : Tool :=
  applyOpts (newTool (generateToolName path method op))
    (mcpWithDescription (getDescription path method op) ::
      (op.parameters.map (addParameterToToolV1 defs)).flatten)

/-- One property entry of swagger2mcp's `inputSchemaFromOperation`. -/
inductive SwaggerProp where
  | scalar (ty : Str) (description : Str)
  | bodySchema (schema : Option ParamSchema) (description : Str)
deriving DecidableEq, Repr

/-- Model of `inputSchemaFromOperation` (swagger2mcp.go lines 152-197): every
parameter — including one named `org_id` — becomes a property, and every
parameter whose required flag is set joins the required list. -/
def inputSchemaSwagger (op : Operation) : List (Str × SwaggerProp) × List Str :=
  (op.parameters.map fun p =>
      (p.name,
        if p.paramIn = strOf "body" then SwaggerProp.bodySchema p.schema p.description
        else SwaggerProp.scalar p.ty p.description),
    (op.parameters.filter fun p => p.required).map fun p => p.name)

theorem applyOpts_append (t : Tool) (o₁ o₂ : List ToolOption) :
    applyOpts t (o₁ ++ o₂) = applyOpts (applyOpts t o₁) o₂ := by
  rw [applyOpts, applyOpts, applyOpts, List.foldl_append]

/-- The property map produced for one flattened definition property. -/
def bodyPropMap (tyName : Str) (prop : ParamSchema) : PropMap :=
  { ty := tyName
    description := some
      (if prop.description ≠ [] then strOf "Parameter: " ++ prop.ty
       else prop.description)
    enum := prop.enum
    req := false }

theorem mcpField_withParamSchema (tyName name : Str) (prop : ParamSchema)
    (t : Tool) :
    mcpField tyName name (withParamSchema prop) t =
      { t with properties := t.properties ++ [(name, bodyPropMap tyName prop)] } := by
  rw [mcpField, withParamSchema]
  by_cases h : prop.enum ≠ []
  · simp only [if_pos h]
    rfl
  · simp only [if_neg h]
    simp only [ne_eq, not_not] at h
    simp [bodyPropMap, h]

/-- The field type the claim assigns to a declared property type:
string/integer/number/boolean with a string default. -/
def claimFieldType (declared : Str) : Str :=
  if declared = strOf "string" then strOf "string"
  else if declared = strOf "integer" ∨ declared = strOf "number" then strOf "number"
  else if declared = strOf "boolean" then strOf "boolean"
  else strOf "string"

theorem typedFieldOf_eq (name : Str) (prop : ParamSchema) :
    typedFieldOf name prop =
      mcpField (claimFieldType prop.ty) name (withParamSchema prop) := by
  by_cases h1 : prop.ty = strOf "string"
  · rw [typedFieldOf, claimFieldType, if_pos h1, if_pos h1]
    rfl
  · by_cases h2 : prop.ty = strOf "integer" ∨ prop.ty = strOf "number"
    · rw [typedFieldOf, claimFieldType, if_neg h1, if_neg h1, if_pos h2, if_pos h2]
      rfl
    · by_cases h3 : prop.ty = strOf "boolean"
      · rw [typedFieldOf, claimFieldType, if_neg h1, if_neg h1, if_neg h2, if_neg h2,
          if_pos h3, if_pos h3]
        rfl
      · rw [typedFieldOf, claimFieldType, if_neg h1, if_neg h1, if_neg h2, if_neg h2,
          if_neg h3, if_neg h3]
        rfl

theorem applyOpts_typedFields (props : List (Str × ParamSchema)) :
    ∀ t : Tool,
      applyOpts t (props.map fun np => typedFieldOf np.1 np.2) =
        { t with properties := t.properties ++
            props.map fun np => (np.1, bodyPropMap (claimFieldType np.2.ty) np.2) } := by
  induction props with
  | nil => intro t; simp [applyOpts]
  | cons np rest ih =>
    intro t
    rw [List.map_cons, applyOpts, List.foldl_cons]
    show applyOpts (typedFieldOf np.1 np.2 t) (rest.map fun np => typedFieldOf np.1 np.2) = _
    rw [typedFieldOf_eq, mcpField_withParamSchema, ih]
    simp

theorem applyOpts_withRequired (t : Tool) (ns : List Str) :
    applyOpts t [withRequired ns] = { t with required := t.required ++ ns } := by
  show withRequired ns t = _
  rw [withRequired]
  by_cases h : ns ≠ []
  · rw [if_pos h]
  · rw [if_neg h]
    simp only [ne_eq, not_not] at h
    simp [h]

theorem withParam_ty (param : Parameter) (m : PropMap) :
    (withParam param m).ty = m.ty := by
  rw [withParam]
  cases param.schema with
  | none =>
    by_cases h : param.required <;> simp [h]
  | some sch =>
    by_cases h : param.required <;> by_cases he : sch.enum ≠ [] <;> simp [h, he]

/-- Claim C4 (as stated, proved for the flattening synthesizer of the
sibling revision): for an operation whose single parameter is a body
parameter, a resolvable definition reference yields exactly one top-level
field per definition property, typed per the property's declared type with a
string default, and the tool's required set is exactly the definition's own
required list — for either value of the body parameter's own required flag;
an unresolvable reference yields a single opaque string field named after
the body parameter. -/
theorem c4_body_flattening (defs : List (Str × Definition)) (path method : Str)
    (op : Operation) (param : Parameter)
    (hbody : param.paramIn = strOf "body")
    (horg : equalFold param.name orgKey = false) :
    match resolveRef param defs with
    | some defn =>
      ∀ b : Bool,
        (createToolFromOperation defs path method
            { op with parameters := [{ param with required := b }] }).required =
          defn.required ∧
        (createToolFromOperation defs path method
            { op with parameters := [{ param with required := b }] }).properties =
          defn.properties.map fun np => (np.1, bodyPropMap (claimFieldType np.2.ty) np.2)
    | none =>
      ∃ m : PropMap,
        (createToolFromOperation defs path method
            { op with parameters := [param] }).properties = [(param.name, m)] ∧
        m.ty = strOf "string" := by
  have horg' : ∀ q : Parameter, q.name = param.name →
      ¬ (equalFold q.name orgKey = true) := by
    intro q hq hcontra
    rw [hq, horg] at hcontra
    exact Bool.false_ne_true hcontra
  cases heq : resolveRef param defs with
  | some defn =>
    intro b
    have hopts : addParameterToTool defs { param with required := b } =
        (defn.properties.map fun np => typedFieldOf np.1 np.2) ++
          [withRequired defn.required] := by
      rw [addParameterToTool, if_neg (horg' _ rfl), if_pos (show _ = _ from hbody),
        withBodyParamFlat,
        show resolveRef { param with required := b } defs = some defn from heq]
    rw [createToolFromOperation]
    simp only [List.map_cons, List.map_nil, List.flatten_cons, List.flatten_nil,
      List.append_nil, hopts]
    rw [applyOpts, List.foldl_cons, ← applyOpts]
    rw [applyOpts_append, applyOpts_typedFields, applyOpts_withRequired]
    simp [mcpWithDescription, newTool]
  | none =>
    have hopts : addParameterToTool defs param =
        [mcpWithString param.name (withParam param)] := by
      rw [addParameterToTool, if_neg (horg' _ rfl), if_pos (show _ = _ from hbody),
        withBodyParamFlat, heq]
    rw [createToolFromOperation]
    simp only [List.map_cons, List.map_nil, List.flatten_cons, List.flatten_nil,
      List.append_nil, hopts]
    rw [applyOpts]
    simp only [List.foldl_cons, List.foldl_nil]
    simp only [mcpWithString, mcpField]
    by_cases hreq :
        (withParam param
          { ty := strOf "string", description := none, enum := [], req := false }).req = true
    · rw [if_pos hreq]
      exact ⟨_, rfl, withParam_ty param _⟩
    · rw [if_neg hreq]
      exact ⟨_, rfl, withParam_ty param _⟩

/-- A plain string property schema used in concrete instances. -/
def strProp : ParamSchema := { ty := strOf "string", enum := [], description := [], ref := [] }

/-- Concrete definition for the C4 instances, requiring `a` and `b`. -/
def c4Defn : Definition :=
  { ty := strOf "object"
    properties := [(strOf "a", strProp), (strOf "b", { strProp with ty := strOf "integer" })]
    required := [strOf "a", strOf "b"] }

def c4Defs : List (Str × Definition) := [(strOf "CreateReq", c4Defn)]

/-- Concrete body parameter referencing `#/definitions/CreateReq`. -/
def c4Body : Parameter :=
  { name := strOf "payload", paramIn := strOf "body", ty := [], required := false
    description := []
    schema := some { ty := [], enum := [], description := [],
                     ref := strOf "#/definitions/CreateReq" } }

def c4Op : Operation :=
  { operationID := strOf "createConf", summary := [], description := [],
    tags := [], parameters := [c4Body] }

/-- Witness for C4: the spec's required-propagation example — a definition
requiring `{a, b}` and a body parameter whose own required flag is set —
yields required exactly `[a, b]` and one typed field per property. -/
theorem c4_witness :
    (c4Body.paramIn = strOf "body" ∧ equalFold c4Body.name orgKey = false) ∧
      (createToolFromOperation c4Defs (strOf "/v1/confs") (strOf "post")
          { c4Op with parameters := [{ c4Body with required := true }] }).required
        = c4Defn.required ∧
      (createToolFromOperation c4Defs (strOf "/v1/confs") (strOf "post")
          { c4Op with parameters := [{ c4Body with required := true }] }).properties
        = c4Defn.properties.map fun np =>
            (np.1, bodyPropMap (claimFieldType np.2.ty) np.2) := by
  have h := c4_body_flattening c4Defs (strOf "/v1/confs") (strOf "post") c4Op c4Body
    (by decide) (by decide)
  rw [show resolveRef c4Body c4Defs = some c4Defn from by decide] at h
  exact ⟨⟨by decide, by decide⟩, (h true).1, (h true).2⟩

/-- Claim C4 counterexample: in the pkg/tools/server.go revision,
`withBodyParam` keeps the body parameter as a single string field (its
description merely mentions the definition's properties) and its
`Definition` struct carries no required list: the tool has one field named
`payload` — not one per property — and an empty required set instead of
`[a, b]`. -/
theorem c4_counterexample :
    (createToolFromOperationV1 c4Defs (strOf "/v1/confs") (strOf "post")
        c4Op).properties.map Prod.fst = [strOf "payload"] ∧
      (createToolFromOperationV1 c4Defs (strOf "/v1/confs") (strOf "post")
        c4Op).required = [] ∧
      [strOf "payload"] ≠ c4Defn.properties.map Prod.fst ∧
      ([] : List Str) ≠ c4Defn.required := by
  exact ⟨by decide, by decide, by decide, by decide⟩

theorem flatten_map_filter {α β : Type} (f : α → List β) (q : α → Bool)
    (h : ∀ a, q a = false → f a = []) :
    ∀ l : List α, (l.map f).flatten = ((l.filter q).map f).flatten := by
  intro l
  induction l with
  | nil => rfl
  | cons a rest ih =>
    cases hq : q a
    · rw [List.map_cons, List.flatten_cons, h a hq, List.nil_append,
        List.filter_cons_of_neg (by simp [hq]), ih]
    · rw [List.map_cons, List.flatten_cons, List.filter_cons_of_pos (by simp [hq]),
        List.map_cons, List.flatten_cons, ih]

/-- Claim C7 (amended, proved for the tools synthesizer): a parameter whose
name is `org_id` (case-insensitively) contributes nothing to the synthesized
tool — the tool equals the one synthesized with all such parameters removed —
and at invocation time, whenever the path contains `{org_id}` and the
ambient context carries an org id, the `org_id` argument is populated from
the ambient context. -/
theorem c7_org_id_excluded (defs : List (Str × Definition)) (path method : Str)
    (op : Operation) :
    createToolFromOperation defs path method op =
      createToolFromOperation defs path method
        { op with parameters :=
            op.parameters.filter fun p => !equalFold p.name orgKey } ∧
      ∀ (p : Str) (v : Value) (args : List (Str × Value)),
        containsSub p (placeholderOf orgKey) = true →
        lookupArg (injectOrg p (some v) args) orgKey = some v := by
  constructor
  · have hopt : ∀ p : Parameter, (!equalFold p.name orgKey) = false →
        addParameterToTool defs p = [] := by
      intro p hp
      have hfold : equalFold p.name orgKey = true := by
        cases hcase : equalFold p.name orgKey
        · rw [hcase] at hp
          simp at hp
        · rfl
      rw [addParameterToTool, if_pos hfold]
    rw [createToolFromOperation, createToolFromOperation,
      flatten_map_filter (addParameterToTool defs)
        (fun p => !equalFold p.name orgKey) hopt op.parameters]
    rfl
  · intro p v args hc
    rw [injectOrg, if_pos hc]
    exact lookupArg_setArg_self orgKey v args

/-- Concrete `org_id` path parameter for the C7 counterexample. -/
def c7Param : Parameter :=
  { name := orgKey, paramIn := strOf "path", ty := strOf "string", required := true,
    description := [], schema := none }

def c7Op : Operation :=
  { operationID := strOf "getConf", summary := [], description := [], tags := [],
    parameters := [c7Param] }

/-- Claim C7 counterexample: swagger2mcp's `inputSchemaFromOperation` has no
`org_id` exclusion — an operation with an `org_id` path parameter gets a
schema whose field set (and required set) contain `org_id`, and that
revision's invocation path (`makeOpenAPICall`) performs no ambient
injection. -/
theorem c7_counterexample :
    (inputSchemaSwagger c7Op).1.map Prod.fst = [orgKey] ∧
      orgKey ∈ (inputSchemaSwagger c7Op).1.map Prod.fst ∧
      (inputSchemaSwagger c7Op).2 = [orgKey] := by
  exact ⟨by decide, by decide, by decide⟩

/-- Witness for C7: a path containing `{org_id}`, ambient org id `org-1`, and
a caller-supplied `org_id` argument; after injection the `org_id` argument is
the ambient value. -/
theorem c7_witness :
    containsSub (strOf "/v1/orgs/{org_id}") (placeholderOf orgKey) = true ∧
      lookupArg
        (injectOrg (strOf "/v1/orgs/{org_id}") (some (Value.vStr (strOf "org-1")))
          [(orgKey, Value.vStr (strOf "HACK"))]) orgKey
      = some (Value.vStr (strOf "org-1")) := by
  refine ⟨by decide, ?_⟩
  exact (c7_org_id_excluded [] [] []
    { operationID := [], summary := [], description := [], tags := [],
      parameters := [] }).2 _ _ _ (by decide)

/-! C5/C10: query-string assembly and the optional-parameter accessor. -/

/-- Model of `optionalParam[float64]` (server.go lines 429-447, identical in the
sibling revision and swagger2mcp): absent parameter -> zero value, no error;
present with the wrong dynamic type -> zero value with an error; present as
a number -> its value.  The Go error text interpolates the parameter name
and the dynamic types; callers only branch on the presence of an error, so
the message is modelled as a fixed text around the name. -/
def optionalParamNum (args : List (Str × Value)) (p : Str) : Except Str Int :=
  match lookupArg args p with
  | none => .ok 0
  | some (Value.vNum n) => .ok n
  | some _ => .error (strOf "parameter " ++ p ++ strOf " is not of expected type")

/-- Model of `optionalParam[bool]`. -/
def optionalParamBool (args : List (Str × Value)) (p : Str) : Except Str Bool :=
  match lookupArg args p with
  | none => .ok false
  | some (Value.vBool b) => .ok b
  | some _ => .error (strOf "parameter " ++ p ++ strOf " is not of expected type")

/-- Model of `optionalParam[string]`. -/
def optionalParamStr (args : List (Str × Value)) (p : Str) : Except Str Str :=
  match lookupArg args p with
  | none => .ok []
  | some (Value.vStr s) => .ok s
  | some _ => .error (strOf "parameter " ++ p ++ strOf " is not of expected type")

/-- The effective declared type of a parameter: `param.Type`, or
`param.Schema.Type` when empty (server.go lines 370-374). -/
def effType (param : Parameter) : Str :=
  if param.ty = [] then
    match param.schema with
    | some sch => sch.ty
    | none => []
  else param.ty

/-- The loop body of `Server.addQueryParameters` (server.go lines 364-392)
for one declared parameter: skip non-query parameters; numbers are added
when extraction succeeds and the value is non-zero, booleans whenever
extraction succeeds (including the absent case, which extracts as `false`),
strings and unknown types when extraction succeeds and the value is
nonempty. -/
def queryStep (args : List (Str × Value)) (acc : List (Str × Str))
    (param : Parameter) : List (Str × Str) :=
  if param.paramIn ≠ strOf "query" then acc
  else if effType param = strOf "integer" ∨ effType param = strOf "number" then
    match optionalParamNum args param.name with
    | .ok v => if v ≠ 0 then acc ++ [(param.name, intRepr v)] else acc
    | .error _ => acc
  else if effType param = strOf "boolean" then
    match optionalParamBool args param.name with
    | .ok v => acc ++ [(param.name, boolRepr v)]
    | .error _ => acc
  else
    match optionalParamStr args param.name with
    | .ok v => if v ≠ [] then acc ++ [(param.name, v)] else acc
    | .error _ => acc

/-- Model of `Server.addQueryParameters` (server.go lines 360-395): the (name, value)
pairs added to the query, in declaration order.  `url.Values.Encode` then
serializes exactly these pairs (sorted and percent-encoded), which no claim
depends on. -/
def addQueryParameters (parameters : List Parameter)
    (args : List (Str × Value)) : List (Str × Str) :=
  parameters.foldl (queryStep args) []

/-- The per-parameter query entry described by the amended claim: numeric
parameters are sent exactly when present, correctly typed and non-zero;
string/unknown parameters exactly when present, correctly typed and
nonempty; boolean parameters always, as `false` when absent, except when
present with the wrong type. -/
def queryEntry (args : List (Str × Value)) (param : Parameter) :
    Option (Str × Str) :=
  if param.paramIn ≠ strOf "query" then none
  else if effType param = strOf "integer" ∨ effType param = strOf "number" then
    match lookupArg args param.name with
    | some (Value.vNum n) => if n ≠ 0 then some (param.name, intRepr n) else none
    | some _ => none
    | none => none
  else if effType param = strOf "boolean" then
    match lookupArg args param.name with
    | some (Value.vBool b) => some (param.name, boolRepr b)
    | some _ => none
    | none => some (param.name, boolRepr false)
  else
    match lookupArg args param.name with
    | some (Value.vStr s) => if s ≠ [] then some (param.name, s) else none
    | some _ => none
    | none => none

/-- The query assembly described by the amended claim. -/
def querySpec (parameters : List Parameter) (args : List (Str × Value)) :
    List (Str × Str) :=
  parameters.filterMap (queryEntry args)

theorem queryStep_eq (args : List (Str × Value)) (acc : List (Str × Str))
    (param : Parameter) :
    queryStep args acc param =
      acc ++ (match queryEntry args param with
        | some e => [e]
        | none => []) := by
  rw [queryStep, queryEntry]
  by_cases hq : param.paramIn ≠ strOf "query"
  · simp [hq]
  rw [if_neg hq, if_neg hq]
  by_cases hnum : effType param = strOf "integer" ∨ effType param = strOf "number"
  · rw [if_pos hnum, if_pos hnum, optionalParamNum]
    cases hlook : lookupArg args param.name with
    | none => simp
    | some v =>
      cases v with
      | vNum n =>
        by_cases hz : n ≠ 0
        · simp [hz]
        · simp [hz]
      | vStr s => simp
      | vBool b => simp
  rw [if_neg hnum, if_neg hnum]
  by_cases hbool : effType param = strOf "boolean"
  · rw [if_pos hbool, if_pos hbool, optionalParamBool]
    cases hlook : lookupArg args param.name with
    | none => simp
    | some v => cases v <;> simp
  rw [if_neg hbool, if_neg hbool, optionalParamStr]
  cases hlook : lookupArg args param.name with
  | none => simp
  | some v =>
    cases v with
    | vStr s =>
      by_cases hs : s ≠ []
      · simp [hs]
      · simp [hs]
    | vNum n => simp
    | vBool b => simp

theorem foldl_queryStep (args : List (Str × Value)) :
    ∀ (parameters : List Parameter) (acc : List (Str × Str)),
      parameters.foldl (queryStep args) acc = acc ++ querySpec parameters args := by
  intro parameters
  induction parameters with
  | nil => intro acc; simp [querySpec]
  | cons p rest ih =>
    intro acc
    rw [List.foldl_cons, ih, queryStep_eq]
    show _ = acc ++ List.filterMap (queryEntry args) (p :: rest)
    rw [List.filterMap_cons]
    cases queryEntry args p with
    | none => simp [querySpec]
    | some e => simp [querySpec]

/-- Claim C5 (amended): the built query string contains exactly — in
declaration order — the numeric query parameters whose argument is present,
correctly typed and non-zero (as decimal text), the string query parameters
whose argument is present, correctly typed and nonempty (verbatim), and
every boolean query parameter that is not supplied with a wrong-typed
argument, serialized as "true"/"false" — an absent boolean is sent as
"false", not omitted. -/
theorem c5_query_assembly (parameters : List Parameter)
    (args : List (Str × Value)) :
    addQueryParameters parameters args = querySpec parameters args := by
  rw [addQueryParameters, foldl_queryStep]
  rfl

/-- Concrete boolean query parameter for the C5 instances. -/
def c5BoolParam : Parameter :=
  { name := strOf "flag", paramIn := strOf "query", ty := strOf "boolean",
    required := false, description := [], schema := none }

/-- Claim C5 counterexample: the claim says an absent query argument is
omitted entirely, but an absent boolean query parameter is serialized as
`flag=false` (the boolean case of `addQueryParameters` checks only the
extraction error, and extraction of an absent parameter succeeds with the
zero value `false`). -/
theorem c5_counterexample :
    addQueryParameters [c5BoolParam] [] = [(strOf "flag", strOf "false")] ∧
      [(strOf "flag", strOf "false")] ≠ ([] : List (Str × Str)) := by
  exact ⟨by decide, by decide⟩

/-- Claim C10: the optional-parameter accessor returns the requested type's
zero value with no error when the parameter is absent; the argument's value
with no error when present with the requested type; and the zero value
together with an error when present with a wrong type — and consequently a
declared query parameter supplied with a wrong-typed argument is silently
omitted from the query string instead of failing the invocation. -/
theorem c10_optional_param (args : List (Str × Value)) (p : Str) :
    (lookupArg args p = none →
      optionalParamNum args p = .ok 0 ∧ optionalParamBool args p = .ok false ∧
        optionalParamStr args p = .ok []) ∧
      (∀ n : Int, lookupArg args p = some (Value.vNum n) →
        optionalParamNum args p = .ok n) ∧
      (∀ b : Bool, lookupArg args p = some (Value.vBool b) →
        optionalParamBool args p = .ok b) ∧
      (∀ s : Str, lookupArg args p = some (Value.vStr s) →
        optionalParamStr args p = .ok s) ∧
      (∀ v : Value, lookupArg args p = some v → (∀ n : Int, v ≠ Value.vNum n) →
        ∃ e, optionalParamNum args p = .error e) ∧
      (∀ v : Value, lookupArg args p = some v → (∀ b : Bool, v ≠ Value.vBool b) →
        ∃ e, optionalParamBool args p = .error e) ∧
      (∀ v : Value, lookupArg args p = some v → (∀ s : Str, v ≠ Value.vStr s) →
        ∃ e, optionalParamStr args p = .error e) ∧
      (∀ (param : Parameter) (v : Value),
        param.paramIn = strOf "query" → param.name = p →
        lookupArg args p = some v →
        ((effType param = strOf "integer" ∨ effType param = strOf "number") →
          (∀ n : Int, v ≠ Value.vNum n) → addQueryParameters [param] args = []) ∧
        (effType param = strOf "boolean" → (∀ b : Bool, v ≠ Value.vBool b) →
          addQueryParameters [param] args = []) ∧
        (effType param = strOf "string" → (∀ s : Str, v ≠ Value.vStr s) →
          addQueryParameters [param] args = [])) := by
  refine ⟨?_, ?_, ?_, ?_, ?_, ?_, ?_, ?_⟩
  · intro h
    rw [optionalParamNum, optionalParamBool, optionalParamStr, h]
    exact ⟨rfl, rfl, rfl⟩
  · intro n h
    rw [optionalParamNum, h]
  · intro b h
    rw [optionalParamBool, h]
  · intro s h
    rw [optionalParamStr, h]
  · intro v h hne
    rw [optionalParamNum, h]
    cases v with
    | vNum n => exact absurd rfl (hne n)
    | vStr s => exact ⟨_, rfl⟩
    | vBool b => exact ⟨_, rfl⟩
  · intro v h hne
    rw [optionalParamBool, h]
    cases v with
    | vBool b => exact absurd rfl (hne b)
    | vStr s => exact ⟨_, rfl⟩
    | vNum n => exact ⟨_, rfl⟩
  · intro v h hne
    rw [optionalParamStr, h]
    cases v with
    | vStr s => exact absurd rfl (hne s)
    | vNum n => exact ⟨_, rfl⟩
    | vBool b => exact ⟨_, rfl⟩
  · intro param v hq hname hlook
    have hstep : ∀ o : Option (Str × Str),
        (queryEntry args param = o) → o = none →
        addQueryParameters [param] args = [] := by
      intro o ho hnone
      rw [addQueryParameters, List.foldl_cons, queryStep_eq, ho, hnone]
      rfl
    have hqn : ¬ param.paramIn ≠ strOf "query" := by
      rw [hq]
      exact fun hcontra => hcontra rfl
    refine ⟨?_, ?_, ?_⟩
    · intro hty hne
      refine hstep _ rfl ?_
      rw [queryEntry, if_neg hqn, if_pos hty, hname, hlook]
      cases v with
      | vNum n => exact absurd rfl (hne n)
      | vStr s => rfl
      | vBool b => rfl
    · intro hty hne
      have hnum : ¬ (effType param = strOf "integer" ∨ effType param = strOf "number") := by
        rw [hty]
        rintro (hcontra | hcontra) <;> simp [strOf] at hcontra
      refine hstep _ rfl ?_
      rw [queryEntry, if_neg hqn, if_neg hnum, if_pos hty, hname, hlook]
      cases v with
      | vBool b => exact absurd rfl (hne b)
      | vStr s => rfl
      | vNum n => rfl
    · intro hty hne
      have hnum : ¬ (effType param = strOf "integer" ∨ effType param = strOf "number") := by
        rw [hty]
        rintro (hcontra | hcontra) <;> simp [strOf] at hcontra
      have hbool : ¬ effType param = strOf "boolean" := by
        rw [hty]
        intro hcontra
        simp [strOf] at hcontra
      refine hstep _ rfl ?_
      rw [queryEntry, if_neg hqn, if_neg hnum, if_neg hbool, hname, hlook]
      cases v with
      | vStr s => exact absurd rfl (hne s)
      | vNum n => rfl
      | vBool b => rfl

/-- Concrete integer query parameter for the C10 witness. -/
def c10Param : Parameter :=
  { name := strOf "limit", paramIn := strOf "query", ty := strOf "integer",
    required := false, description := [], schema := none }

/-- Witness for C10: an absent parameter extracts as zero with no error; a
wrong-typed `limit` argument (a string where a number is declared) extracts
as an error and is omitted from the query string. -/
theorem c10_witness :
    lookupArg ([] : List (Str × Value)) (strOf "limit") = none ∧
      optionalParamNum [] (strOf "limit") = .ok 0 ∧
      lookupArg [(strOf "limit", Value.vStr (strOf "ten"))] (strOf "limit")
        = some (Value.vStr (strOf "ten")) ∧
      (∃ e, optionalParamNum [(strOf "limit", Value.vStr (strOf "ten"))]
        (strOf "limit") = .error e) ∧
      addQueryParameters [c10Param] [(strOf "limit", Value.vStr (strOf "ten"))] = [] := by
  refine ⟨by decide, ?_, by decide, ?_, ?_⟩
  · exact ((c10_optional_param [] (strOf "limit")).1 (by decide)).1
  · exact (c10_optional_param [(strOf "limit", Value.vStr (strOf "ten"))]
      (strOf "limit")).2.2.2.2.1 (Value.vStr (strOf "ten")) (by decide)
      fun n h => Value.noConfusion h
  · exact (((c10_optional_param [(strOf "limit", Value.vStr (strOf "ten"))]
        (strOf "limit")).2.2.2.2.2.2.2 c10Param (Value.vStr (strOf "ten"))
        (by decide) (by decide) (by decide)).1 (by decide)
        fun n h => Value.noConfusion h)

/-! C6: response classification in `executeOperation`. -/

/-- A tool-invocation result as mcp-go represents it:
`NewToolResultError` sets the error flag, `NewToolResultText` does not. -/
structure CallToolResult where
  isError : Bool
  text : Str
deriving DecidableEq, Repr

/-- The outcome of `httpClient.Do` together with the full body read: the
request was delivered and a status and body came back, or delivery failed
with a transport error message. -/
inductive DoResult where
  | ok (status : Nat) (body : Str)
  | fail (msg : Str)
deriving DecidableEq, Repr

/-- The response-classification tail of `Server.executeOperation`
(server.go lines 318-335, identical in the sibling revision and in
swagger2mcp's `makeOpenAPICall`): a transport failure becomes a
`failed to execute request: ...` error result, a delivered response with
status >= 400 becomes an `API error <status>: <body>` error result, and
anything else is the body as a plain text result.  Every case returns a nil
Go error (the second component), so the failure stays scoped to the
invocation result instead of escalating.  (The body-read failure branch of
lines 326-329 likewise returns an error result with a nil Go error; no claim
exercises it.) -/
def classifyResponse : DoResult → CallToolResult × Option Str
  | .fail m => (⟨true, strOf "failed to execute request: " ++ m⟩, none)
  | .ok st body =>
    if 400 ≤ st then
      (⟨true, strOf "API error " ++ (natRepr st ++ (strOf ": " ++ body))⟩, none)
    else (⟨false, body⟩, none)

/-- Claim C6: a response with status >= 400 yields an error result embedding
the decimal status code and the raw body verbatim; a delivery failure yields
an error result embedding the transport message; the two results differ for
every status, body and message; and both are returned with a nil invocation
error (non-fatal). -/
theorem c6_outcome_classification (st : Nat) (body m : Str) (h : 400 ≤ st) :
    ((classifyResponse (.ok st body)).1.isError = true ∧
      containsSub (classifyResponse (.ok st body)).1.text (natRepr st) = true ∧
      containsSub (classifyResponse (.ok st body)).1.text body = true ∧
      (classifyResponse (.ok st body)).2 = none) ∧
      ((classifyResponse (.fail m)).1.isError = true ∧
        containsSub (classifyResponse (.fail m)).1.text m = true ∧
        (classifyResponse (.fail m)).2 = none) ∧
      (classifyResponse (.ok st body)).1 ≠ (classifyResponse (.fail m)).1 := by
  have hok : classifyResponse (.ok st body) =
      (⟨true, strOf "API error " ++ (natRepr st ++ (strOf ": " ++ body))⟩, none) := by
    simp only [classifyResponse]
    rw [if_pos h]
  refine ⟨⟨?_, ?_, ?_, ?_⟩, ⟨rfl, ?_, rfl⟩, ?_⟩
  · rw [hok]
  · rw [hok]
    exact containsSub_occurrence (natRepr st) (strOf "API error ") (strOf ": " ++ body)
  · rw [hok]
    have := containsSub_occurrence body
      (strOf "API error " ++ (natRepr st ++ strOf ": ")) []
    simpa [List.append_assoc] using this
  · rw [hok]
  · have := containsSub_occurrence m (strOf "failed to execute request: ") []
    simpa using this
  · rw [hok]
    intro heq
    have hhead := congrArg (fun r : CallToolResult => r.text.head?) heq
    have h1 : (strOf "API error " ++ (natRepr st ++ (strOf ": " ++ body))).head?
        = some 'A' := rfl
    have h2 : (strOf "failed to execute request: " ++ m).head? = some 'f' := rfl
    simp only [classifyResponse] at hhead
    rw [h1, h2] at hhead
    simp at hhead

/-- Witness for C6: the spec's backend-error-fidelity example — status 404
with body `{"error":"not found"}` — and a connection-refused transport
failure. -/
theorem c6_witness :
    (400 ≤ 404) ∧
      (classifyResponse (.ok 404 (strOf "\x7b\"error\":\"not found\"\x7d"))).1.isError = true ∧
      (classifyResponse (.ok 404 (strOf "\x7b\"error\":\"not found\"\x7d"))).1.text
        = strOf "API error 404: \x7b\"error\":\"not found\"\x7d" ∧
      (classifyResponse (.ok 404 (strOf "\x7b\"error\":\"not found\"\x7d"))).1
        ≠ (classifyResponse (.fail (strOf "connection refused"))).1 := by
  refine ⟨by decide, ?_, by decide, ?_⟩
  · exact (c6_outcome_classification 404 (strOf "\x7b\"error\":\"not found\"\x7d")
      (strOf "connection refused") (by decide)).1.1
  · exact (c6_outcome_classification 404 (strOf "\x7b\"error\":\"not found\"\x7d")
      (strOf "connection refused") (by decide)).2.2

/-! C8: spec loading. -/

/-- The specification content relevant to loading: flattened
path/method/operation triples plus named definitions. -/
structure SpecModel where
  paths : List (Str × Str × Operation)
  definitions : List (Str × Definition)
deriving DecidableEq, Repr

/-- A fetched document body for the tools loader: it either parses
(`json.Unmarshal` succeeds) or is malformed. -/
inductive Doc where
  | wellFormed (spec : SpecModel)
  | malformed
deriving DecidableEq, Repr

/-- The outcome of the HTTP GET for a spec document, over a body type. -/
inductive FetchRes (β : Type) where
  | netFail (msg : Str)
  | resp (status : Nat) (body : β)
deriving DecidableEq, Repr

/-- The outcome of spec loading: a value, a returned error, or — modelling
`log.Fatalf` — process termination. -/
inductive LoadResult (α : Type) where
  | ok (a : α)
  | err (msg : Str)
  | fatal (msg : Str)
deriving DecidableEq, Repr

/-- Model of `Server.generateTools` of pkg/tools/server.go (lines 142-169): one tool
per retained operation whose derived name is nonempty. -/
def generateToolsList (allowedTags : List Str) (spec : SpecModel) : List Tool :=
  (spec.paths.filter fun pmo => hasAllowedTag allowedTags pmo.2.2.tags).filterMap
    fun pmo =>
      let t := createToolFromOperationV1 spec.definitions pmo.1 pmo.2.1 pmo.2.2
      if t.name ≠ [] then some t else none

/-- Model of `Server.LoadSpec` composed with `CreateServer` (pkg/tools/server.go
lines 105-139 and 397-417): a network failure or a non-200 status is a
returned fetch error, a malformed document is a returned parse error, and on
any error `CreateServer` returns it before registering any tool; only a
200-status well-formed document yields registered tools. -/
def createServerTools (allowedTags : List Str) (f : FetchRes Doc) :
    LoadResult (List Tool) :=
  match f with
  | .netFail m => .err (strOf "failed to fetch swagger from URL: " ++ m)
  | .resp st body =>
    if st ≠ 200 then .err (strOf "unexpected response status code when fetching URL")
    else
      match body with
      | .malformed => .err (strOf "failed to parse swagger JSON")
      | .wellFormed spec => .ok (generateToolsList allowedTags spec)

/-- A document as swagger2mcp's loader distinguishes it: `json.Unmarshal`
failure, `spec.ExpandSpec` failure, or a good spec. -/
inductive SwDoc where
  | parseFail
  | expandFail
  | good (spec : SpecModel)
deriving DecidableEq, Repr

/-- Model of `fetchOpenAPISpec` (pkg/swagger2mcp/swagger2mcp.go lines 28-57): network
failures and non-200 statuses return errors and an expansion failure returns
an error, but a body that fails `json.Unmarshal` hits `log.Fatalf`, which
terminates the process instead of returning. -/
def fetchOpenAPISpecSwagger (f : FetchRes SwDoc) : LoadResult SpecModel :=
  match f with
  | .netFail m => .err (strOf "failed to fetch URL, err: " ++ m)
  | .resp st body =>
    if st ≠ 200 then .err (strOf "unexpected response status code when fetching URL")
    else
      match body with
      | .parseFail => .fatal (strOf "Failed to parse swagger.json")
      | .expandFail => .err (strOf "failed to expand spec")
      | .good spec => .ok spec

/-- Claim C8 (amended): the tools loader returns a classified failure — a
fetch error for a network failure or any non-200 status (including 2xx
statuses other than 200), a parse error for a malformed document — as an
error value, registers no tools on failure, and never terminates the
process; the swagger2mcp loader, however, terminates the process on a
malformed document instead of returning the parse error. -/
theorem c8_spec_loading (allowedTags : List Str) :
    (∀ m : Str, ∃ e, createServerTools allowedTags (.netFail m) = .err e) ∧
      (∀ (st : Nat) (body : Doc), st ≠ 200 →
        ∃ e, createServerTools allowedTags (.resp st body) = .err e) ∧
      (∃ e, createServerTools allowedTags (.resp 200 .malformed) = .err e) ∧
      (∀ spec : SpecModel,
        createServerTools allowedTags (.resp 200 (.wellFormed spec)) =
          .ok (generateToolsList allowedTags spec)) ∧
      (∀ (f : FetchRes Doc) (m : Str), createServerTools allowedTags f ≠ .fatal m) ∧
      (fetchOpenAPISpecSwagger (.resp 200 .parseFail) =
        .fatal (strOf "Failed to parse swagger.json")) := by
  refine ⟨fun m => ⟨_, rfl⟩, ?_, ⟨_, rfl⟩, fun spec => rfl, ?_, rfl⟩
  · intro st body hst
    refine ⟨strOf "unexpected response status code when fetching URL", ?_⟩
    simp only [createServerTools]
    rw [if_pos hst]
  · intro f m
    cases f with
    | netFail m' => exact fun hcontra => LoadResult.noConfusion hcontra
    | resp st body =>
      simp only [createServerTools]
      by_cases hst : st ≠ 200
      · rw [if_pos hst]
        exact fun hcontra => LoadResult.noConfusion hcontra
      · rw [if_neg hst]
        cases body with
        | malformed => exact fun hcontra => LoadResult.noConfusion hcontra
        | wellFormed spec => exact fun hcontra => LoadResult.noConfusion hcontra

/-- Claim C8 counterexample: a malformed document fetched with status 200
drives swagger2mcp's loader into `log.Fatalf` — process termination, not a
returned error — and the tools loader classifies the 2xx status 201 as a
fetch failure even though the claim's taxonomy reserves fetch errors for
non-2xx statuses. -/
theorem c8_counterexample :
    fetchOpenAPISpecSwagger (.resp 200 .parseFail) =
        .fatal (strOf "Failed to parse swagger.json") ∧
      createServerTools [] (.resp 201 (.wellFormed { paths := [], definitions := [] })) =
        .err (strOf "unexpected response status code when fetching URL") := by
  exact ⟨by decide, by decide⟩

/-- Witness for C8: a 500-status fetch yields a returned error, and the
malformed-at-200 swagger2mcp case is the process-terminating one. -/
theorem c8_witness :
    (500 ≠ 200) ∧
      (∃ e, createServerTools [] (.resp 500 .malformed) = .err e) ∧
      fetchOpenAPISpecSwagger (.resp 200 .parseFail) =
        .fatal (strOf "Failed to parse swagger.json") := by
  refine ⟨by decide, ?_, ?_⟩
  · exact (c8_spec_loading []).2.1 500 .malformed (by decide)
  · exact (c8_spec_loading []).2.2.2.2.2
